import Mathlib

/-!
Shallow embedding of the resonance-tuning core of `pysmurf`
(`pysmurf/tune/smurf_tune.py`), and proofs about it.

Modelling conventions:
* numpy float arrays become `List ℚ`; complex arrays become `List Cq`
  (pairs of rationals).
* Phase angles are represented by their coefficient of π: a list entry `c`
  stands for the angle `c·π` radians.  All phase arithmetic in the source
  (`np.unwrap`, line fits, `R²`) is linear or compares against `π`/`2π`,
  so it maps exactly to rational arithmetic on the coefficients.
* Python runtime failures (IndexError, TypeError, ValueError,
  ZeroDivisionError) are modelled with `Except PyErr` / `Option`.
* numpy fancy indexing, `np.where`, `np.diff`, slices and `pandas`
  rolling medians are transcribed operation by operation.
-/

namespace PySmurf

/-- Python runtime errors distinguished by the model. -/
inductive PyErr where
  /-- IndexError: sequence index out of range. -/
  | indexOOB
  /-- ValueError, e.g. `np.min` of an empty array, or an explicit `raise ValueError`. -/
  | valueErr
  /-- TypeError, e.g. `len()` of an integer. -/
  | typeErr
  /-- ZeroDivisionError from python scalar division. -/
  | zeroDiv
  deriving DecidableEq, Repr

/-- Python sequence indexing `l[i]`: IndexError when out of range. -/
def getE {α : Type} (l : List α) (i : ℕ) : Except PyErr α :=
  match l.get? i with
  | some x => .ok x
  | none => .error .indexOOB

/-- Complex numbers with rational components, modelling numpy complex values. -/
abbrev Cq := ℚ × ℚ

/-- Complex subtraction. -/
def cSub (a b : Cq) : Cq := (a.1 - b.1, a.2 - b.2)

/-- Squared magnitude of a complex value. -/
def normSq (a : Cq) : ℚ := a.1 * a.1 + a.2 * a.2

/-- Complex division (divisor 0 gives 0, standing in for numpy's non-finite result). -/
def cDiv (a b : Cq) : Cq :=
  let d := normSq b
  ((a.1 * b.1 + a.2 * b.2) / d, (a.2 * b.1 - a.1 * b.2) / d)

/-- Model of `np.where(cond(l))[0]`: the ascending list of indices whose entry satisfies `p`. -/
def whereIdx {α : Type} (p : α → Bool) (l : List α) : List ℕ :=
  (List.range l.length).filter (fun i =>
    match l.get? i with
    | some x => p x
    | none => false)

/-- Model of `np.diff` on an integer list: entry `i` is `l[i+1] - l[i]`. -/
def npDiff (l : List ℤ) : List ℤ := l.tail.zipWith (fun b a => b - a) l

/-- numpy bool→int cast. -/
def boolInt (b : Bool) : ℤ := if b then 1 else 0

/-- Transcription of `find_flag_blocks` with `minimum=None, min_gap=None`
(`smurf_tune.py` lines 354-372).  `none` models the IndexError that
`_flag[0]` raises on an empty input. -/
def findFlagBlocksBase (flag : List Bool) : Option (List ℕ × List ℕ) :=
  match flag.head?, flag.getLast? with
  | some h, some lst =>
    let f := flag.map boolInt
    let marks := npDiff f
    let start0 := (whereIdx (fun x => x == 1) marks).map (· + 1)
    let start := if h then 0 :: start0 else start0
    let end0 := whereIdx (fun x => x == -1) marks
    let endl := if lst then end0 ++ [flag.length - 1] else end0
    some (start, endl)
  | _, _ => none

/-- Whether `i` is the first index of a maximal True run of `f`. -/
def isStart (f : List Bool) (i : ℕ) : Bool :=
  f.getD i false && (i == 0 || !(f.getD (i-1) false))

/-- Whether `i` is the last index of a maximal True run of `f`. -/
def isEnd (f : List Bool) (i : ℕ) : Bool :=
  f.getD i false && !(f.getD (i+1) false)

/-- The run-start indices of `f`, ascending. -/
def startsOf (f : List Bool) : List ℕ := (List.range f.length).filter (isStart f)

/-- The run-end indices of `f`, ascending. -/
def endsOf (f : List Bool) : List ℕ := (List.range f.length).filter (isEnd f)

/-- Number of `i < m` with `p i`. -/
def cnt (p : ℕ → Bool) (m : ℕ) : ℕ := ((List.range m).filter p).length

/-- Vectorised `after[inds] = before[inds+1]` where
`inds = np.where(np.subtract(before[1:], after[:-1]) < min_gap)[0]`
(`pad_flags`, lines 380-381): an `after` entry whose gap to the next
`before` entry is below `min_gap` is replaced by that next `before` entry. -/
def mergeAfters (before after : List ℤ) (min_gap : ℤ) : List ℤ :=
  after.mapIdx (fun i a =>
    match before.get? (i+1) with
    | some bnext => if bnext - a < min_gap then bnext else a
    | none => a)

/-- numpy slice assignment `arr[max(0,lo):hi] = True`; the `pad_flags`
call sites always have `hi ≥ 1`, so python's negative-index wrap-around
for the upper bound never triggers. -/
def setRangeTrue (l : List Bool) (lo hi : ℤ) : List Bool :=
  l.mapIdx (fun i b => if lo ≤ (i : ℤ) ∧ (i : ℤ) < hi then true else b)

/-- The paint loop of `pad_flags` (lines 386-391). -/
def paintBlocks (before_pad after_pad : ℕ) (min_length : ℤ)
    (pairs : List (ℤ × ℤ)) (init : List Bool) : List Bool :=
  pairs.foldl (fun acc p =>
    if (p.2 - after_pad) - (p.1 + before_pad) > min_length then
      setRangeTrue acc p.1 p.2
    else acc) init

/-- Transcription of `pad_flags` (lines 374-392): find the blocks, make the
end indices exclusive, merge across small gaps, shift by the pads, and paint
the resulting intervals onto a fresh all-False array.  `none` models the
IndexError raised (inside `find_flag_blocks`) on an empty input. -/
def padFlags (f : List Bool) (before_pad after_pad : ℕ)
    (min_gap min_length : ℤ) : Option (List Bool) :=
  match findFlagBlocksBase f with
  | none => none
  | some (before, afterE) =>
    let after : List ℤ := afterE.map (fun e => Int.ofNat e + 1)
    let beforeZ : List ℤ := before.map (fun s => Int.ofNat s)
    let after2 := mergeAfters beforeZ after min_gap
    let before2 := beforeZ.map (fun b => b - (before_pad : ℤ))
    let after3 := after2.map (fun a => a + (after_pad : ℤ))
    some (paintBlocks before_pad after_pad min_length
      (before2.zip after3) (List.replicate f.length false))

/-- The `_flag` preprocessing of `find_flag_blocks` (lines 354-358): with
`min_gap` given, the flags are first padded through `pad_flags` (pads 0). -/
def findFlagBlocksPre (flag : List Bool) (min_gap : Option ℤ) :
    Option (List ℕ × List ℕ) :=
  match min_gap with
  | some g =>
    match padFlags flag 0 0 g 0 with
    | none => none
    | some padded => findFlagBlocksBase padded
  | none => findFlagBlocksBase flag

/-- Transcription of `find_flag_blocks` with its optional arguments
(lines 334-372): with `minimum` given, blocks of length `≤ minimum`
are dropped (lines 368-370). -/
def findFlagBlocks (flag : List Bool) (minimum : Option ℤ) (min_gap : Option ℤ) :
    Option (List ℕ × List ℕ) :=
  match findFlagBlocksPre flag min_gap with
  | none => none
  | some (start, endl) =>
    match minimum with
    | some m =>
      let pairs := (start.zip endl).filter (fun p => ((p.2 : ℤ) - (p.1 : ℤ) + 1) > m)
      some (pairs.map Prod.fst, pairs.map Prod.snd)
    | none => some (start, endl)

/-- The merged exclusive end indices used by `pad_flags`: each run end + 1,
extended to the next run start when the pre-expansion gap is below `min_gap`. -/
def mergedAfters (f : List Bool) (min_gap : ℤ) : List ℤ :=
  mergeAfters ((startsOf f).map (fun s => Int.ofNat s))
    ((endsOf f).map (fun e => Int.ofNat e + 1)) min_gap

def insertSorted (x : ℚ) : List ℚ → List ℚ
  | [] => [x]
  | y :: ys => if x ≤ y then x :: y :: ys else y :: insertSorted x ys

/-- Ascending sort of a rational list (insertion sort). -/
def sortQ (l : List ℚ) : List ℚ := l.foldr insertSorted []

/-- The median as pandas computes it: middle element of the sorted values,
or the mean of the two middle elements for an even count. -/
def medianQ (l : List ℚ) : ℚ :=
  let s := sortQ l
  if l.length % 2 = 1 then s.getD (l.length / 2) 0
  else (s.getD (l.length / 2 - 1) 0 + s.getD (l.length / 2) 0) / 2

/-- pandas `Series.rolling(window=w, center=True).median()` (line 228):
position `i` holds the median of the `w` rows starting at `i - (w-1)/2`
when that window fits inside the series, and NaN (`none`) otherwise
(`min_periods` defaults to the full window). -/
def rollingMedian (l : List ℚ) (w : ℕ) : List (Option ℚ) :=
  (List.range l.length).map (fun i =>
    if (w - 1) / 2 ≤ i ∧ i - (w - 1) / 2 + w ≤ l.length then
      some (medianQ ((l.drop (i - (w - 1) / 2)).take w))
    else none)

/-- Model of `np.min` of a list; `none` models the ValueError on an empty array. -/
def minQ? : List ℚ → Option ℚ
  | [] => none
  | x :: xs => some (xs.foldl (fun a b => if b < a then b else a) x)

/-- Python slice `l[a:b]` for `0 ≤ a, b` (a `b ≤ a` slice is empty). -/
def pySlice {α : Type} (l : List α) (a b : ℕ) : List α := (l.drop a).take (b - a)

/-- The block-minimum index selection of `find_peak` (lines 236-237):
`idx = np.ravel(np.where(amp[s:e] == np.min(amp[s:e])))[0]; idx += s`.
The python slice `amp[s:e]` excludes the block end `e`. -/
def blockMinIdx (amp : List ℚ) (s e : ℕ) : Except PyErr ℕ :=
  match minQ? (pySlice amp s e) with
  | none => .error .valueErr
  | some m => .ok (s + (pySlice amp s e).findIdx (fun x => x == m))

/-- The spec's block minimum (C4): the index of minimum amplitude over the
whole inclusive block `s..e`. -/
def specBlockMinIdx (amp : List ℚ) (s e : ℕ) : Option ℕ :=
  match minQ? (pySlice amp s (e+1)) with
  | none => none
  | some m => some (s + (pySlice amp s (e+1)).findIdx (fun x => x == m))

/-- The acceptance test of `find_peak` (line 238):
`med_amp[idx] - amp[idx] > amp_cut`; a NaN median (window not full)
compares as False. -/
def acceptPeak (med : List (Option ℚ)) (amp : List ℚ) (idx : ℕ) (cut : ℚ) :
    Except PyErr Bool :=
  match med.get? idx, amp.get? idx with
  | some mopt, some a =>
    .ok (match mopt with
      | some m => decide (m - a > cut)
      | none => false)
  | _, _ => .error .indexOOB

/-- The body of the peak loop of `find_peak` (lines 234-239) for one block. -/
def findPeakStep (freq amp : List ℚ) (med : List (Option ℚ))
    (freq_min freq_max amp_cut : ℚ) (acc : List ℕ) (p : ℕ × ℕ) :
    Except PyErr (List ℕ) :=
  match freq.get? p.1, freq.get? p.2 with
  | some fs, some fe =>
    if fs > freq_min ∧ fe < freq_max then
      match blockMinIdx amp p.1 p.2 with
      | .error e => .error e
      | .ok idx =>
        match acceptPeak med amp idx amp_cut with
        | .error e => .error e
        | .ok b => .ok (if b then acc ++ [idx] else acc)
    else .ok acc
  | _, _ => .error .indexOOB

/-- Error-propagating left fold (a python `for` loop whose body may raise). -/
def foldStep {α β : Type} (g : β → α → Except PyErr β) : List α → β → Except PyErr β
  | [], b => .ok b
  | x :: xs, b =>
    match g b x with
    | .error e => .error e
    | .ok b' => foldStep g xs b'

/-- Model of `[l[i] for i in idxs]` with python bounds checking. -/
def mapGetE {α : Type} (l : List α) : List ℕ → Except PyErr (List α)
  | [] => .ok []
  | i :: is =>
    match l.get? i, mapGetE l is with
    | some x, .ok xs => .ok (x :: xs)
    | none, _ => .error .indexOOB
    | some _, .error e => .error e

/-- Transcription of `find_peak` (lines 195-332), with the transcendental
front end supplied as data: `gradLocRaw` holds the first `n-1` entries of
`np.ediff1d(np.unwrap(np.angle(resp)), to_end=[np.nan]) > grad_cut`
(the appended `nan > grad_cut` is the False this definition appends), and
`amp` is `np.abs(resp)`.  Returns the peak index array and `freq[peak]`. -/
def findPeak (freq amp : List ℚ) (gradLocRaw : List Bool)
    (freq_min freq_max amp_cut : ℚ) : Except PyErr (List ℕ × List ℚ) :=
  let flag := gradLocRaw ++ [false]
  let med := rollingMedian amp 500
  match padFlags flag 20 20 10 0 with
  | none => .error .indexOOB
  | some padded =>
    match findFlagBlocks padded none none with
    | none => .error .indexOOB
    | some (starts, ends) =>
      match foldStep (findPeakStep freq amp med freq_min freq_max amp_cut)
          (starts.zip ends) [] with
      | .error e => .error e
      | .ok peaks =>
        match mapGetE freq peaks with
        | .error e => .error e
        | .ok pfreqs => .ok (peaks, pfreqs)

/-- Floored `np.mod(x, 2)` on rationals (result in `[0, 2)`). -/
def fmod2 (x : ℚ) : ℚ := x - 2 * ⌊x / 2⌋

/-- The per-step correction of `np.unwrap` (default period `2π`), in units
of π: `ddmod = mod(dd + π, 2π) - π`, set to `π` when it equals `-π` with
`dd > 0`; the correction is `ddmod - dd`, zeroed when `|dd| < π`. -/
def phCorrect (dd : ℚ) : ℚ :=
  if |dd| < 1 then 0
  else
    let m := fmod2 (dd + 1) - 1
    let m' := if m = -1 ∧ dd > 0 then 1 else m
    m' - dd

def unwrapAux (prev acc : ℚ) : List ℚ → List ℚ
  | [] => []
  | y :: ys => (y + (acc + phCorrect (y - prev))) :: unwrapAux y (acc + phCorrect (y - prev)) ys

/-- Model of `np.unwrap` on phase values given as coefficients of π: each entry gets
the accumulated correction of the steps before it. -/
def unwrapPi : List ℚ → List ℚ
  | [] => []
  | x :: xs => x :: unwrapAux x 0 xs

def sumQ (l : List ℚ) : ℚ := l.foldl (· + ·) 0

/-- Model of `np.polyfit(x, y, 1)` as the exact least-squares line `(slope, intercept)`
(degenerate inputs divide by zero, which rational division sends to 0). -/
def polyfit1 (x y : List ℚ) : ℚ × ℚ :=
  let n : ℚ := x.length
  let sx := sumQ x
  let sy := sumQ y
  let sxx := sumQ (x.map (fun t => t * t))
  let sxy := sumQ (x.zipWith (· * ·) y)
  let slope := (n * sxy - sx * sy) / (n * sxx - sx * sx)
  (slope, (sy - slope * sx) / n)

/-- Model of `np.poly1d(fit)(x)` for a degree-1 fit. -/
def lineVals (c : ℚ × ℚ) (x : List ℚ) : List ℚ := x.map (fun t => c.1 * t + c.2)

/-- The flattened phase of `eta_fit` (lines 445-447):
`phase = np.unwrap(np.angle(resp) - fitted_line(freq))`, where the line is
fitted to `np.unwrap(np.angle(resp))` against `freq` over the whole array.
`wangle` is `np.angle(resp)` in units of π; the fit of values `c·π` is `π`
times the fit of the coefficients, so everything stays in coefficients. -/
def flattenedPhase (freq wangle : List ℚ) : List ℚ :=
  unwrapPi (wangle.zipWith (· - ·) (lineVals (polyfit1 freq (unwrapPi wangle)) freq))

/-- The flattened phase as claim C3 describes it: `unwrap(angle(resp))`
minus the fitted line. -/
def specFlattenedPhase (freq wangle : List ℚ) : List ℚ :=
  (unwrapPi wangle).zipWith (· - ·) (lineVals (polyfit1 freq (unwrapPi wangle)) freq)

/-- The `r2_value` helper of `eta_fit` (lines 464-472); on phase values
`c·π` the π² factors of `ssreg` and `sstot` cancel, so coefficients give
the same ratio. -/
def r2Value (x y : List ℚ) : ℚ :=
  let fit := polyfit1 x y
  let yhat := lineVals fit x
  let ybar := sumQ y / (y.length : ℚ)
  let ssreg := sumQ (yhat.map (fun t => (t - ybar) * (t - ybar)))
  let sstot := sumQ (y.map (fun t => (t - ybar) * (t - ybar)))
  ssreg / sstot

/-- The `left` index of `eta_fit` (lines 451-454): the last index with
`freq < peak_freq - delF`, or 0 when there is none (caught IndexError). -/
def leftIdx (freq : List ℚ) (pf delF : ℚ) : ℕ :=
  ((whereIdx (fun x => decide (x < pf - delF)) freq).getLast?).getD 0

/-- The `right` index of `eta_fit` (line 455): the first index with
`freq > peak_freq + delF`; `none` models the uncaught IndexError. -/
def rightIdx? (freq : List ℚ) (pf delF : ℚ) : Option ℕ :=
  (whereIdx (fun x => decide (x > pf + delF)) freq).head?

/-- The outputs of `eta_fit`.  `eta` is kept as a complex rational
(`eta_mag`/`eta_angle` are determined by it but irrational in general);
`etaScaledSq` is the square of `eta_scaled = |eta|·1e-6/subbandHalfWidth`;
`ampSq` is the squared `np.abs(resp)` array. -/
structure EtaOut where
  eta : Cq
  etaScaledSq : ℚ
  r2 : ℚ
  ampSq : List ℚ
  deriving DecidableEq, Repr

/-- Transcription of `eta_fit` (lines 434-483).  `wangle` is
`np.angle(resp)` in units of π (the transcendental step supplied as data).
The `min_idx` lookup (line 449) raises IndexError when `peak_freq` is not
an exact element of `freq`; the `right` lookup raises IndexError when no
entry exceeds `peak_freq + delF` (the `try` only covers `left`). -/
def etaFit (freq : List ℚ) (resp : List Cq) (wangle : List ℚ)
    (peakFreq delF subbandHalfWidth : ℚ) : Except PyErr EtaOut :=
  let ampSq := resp.map normSq
  let phase := flattenedPhase freq wangle
  match (whereIdx (fun x => x == peakFreq) freq).head? with
  | none => .error .indexOOB
  | some _minIdx =>
    let left := leftIdx freq peakFreq delF
    match rightIdx? freq peakFreq delF with
    | none => .error .indexOOB
    | some right =>
      match resp.get? right, resp.get? left with
      | some rr, some rl =>
        let eta := cDiv (freq.getD right 0 - freq.getD left 0, 0) (cSub rr rl)
        let scl := (1/1000000 : ℚ) / subbandHalfWidth
        .ok { eta := eta, etaScaledSq := normSq eta * (scl * scl),
              r2 := r2Value (pySlice freq left right) (pySlice phase left right),
              ampSq := ampSq }
      | _, _ => .error .indexOOB

/-- Transcription of `check_freq_scale` (lines 585-591); python scalar
division by zero raises ZeroDivisionError. -/
def checkFreqScale (f1 f2 : ℚ) : Except PyErr Bool :=
  if f2 = 0 then .error .zeroDiv
  else .ok (if |f1 / f2| > 1000 then false else true)

/-- Model of `np.argmin` (first minimiser); total, call sites guarantee nonempty. -/
def argminIdx (l : List ℚ) : ℕ :=
  match minQ? l with
  | none => 0
  | some m => l.findIdx (fun x => x == m)

/-- Transcription of `get_closest_subband` (lines 570-583), with the
band's subband-center table supplied by the collaborator
(`get_subband_centers` is external hardware/config code).  The scale check
uses `centers[0]`, and the ValueError carries `f` and `centers[0]`. -/
def getClosestSubband (f : ℚ) (centers : List ℚ) : Except PyErr ℕ :=
  match getE centers 0 with
  | .error e => .error e
  | .ok c0 =>
    match checkFreqScale f c0 with
    | .error e => .error e
    | .ok true => .ok (argminIdx (centers.map (fun x => |x - f|)))
    | .ok false => .error .valueErr

/-- The nearest center in the sense of claim C2: the entry of `centers`
closest to `f` by absolute difference, earliest on ties. -/
def specNearestCenter (f : ℚ) (centers : List ℚ) : Option ℚ :=
  centers.get? (argminIdx (centers.map (fun x => |x - f|)))

/-- Model of python `len()` applied to an integer: it raises TypeError. -/
def pyLenOfInt (_i : ℕ) : Except PyErr ℕ := .error .typeErr

def insertNat (x : ℕ) : List ℕ → List ℕ
  | [] => [x]
  | y :: ys => if x ≤ y then x :: y :: ys else y :: insertNat x ys

/-- CPython iteration order of `set(subbands)` for small non-negative
integers: ascending, without duplicates. -/
def uniqueSorted (l : List ℕ) : List ℕ := l.dedup.foldr insertNat []

/-- numpy fancy-index assignment `channels[positions] = values`, pairwise. -/
def assignAt : List ℤ → List ℕ → List ℤ → List ℤ
  | ch, [], _ => ch
  | ch, _ :: _, [] => ch
  | ch, i :: is, v :: vs => assignAt (ch.set i v) is vs

/-- One iteration of the channel-assignment loop of `assign_channels`
(lines 614-624) for the subband `sb`.  `list(concat_mask)[0]` is a numpy
integer, so the `len()` call on it (line 622, `chans =
chans[:len(list(concat_mask)[0])]`) raises TypeError. -/
def assignChannelsStep (subbands : List ℕ) (chansOf : ℕ → List ℤ)
    (channel_per_subband : ℕ) (channels : List ℤ) (sb : ℕ) :
    Except PyErr (List ℤ) :=
  let chans := chansOf sb
  let mask := whereIdx (fun x => x == sb) subbands
  let concat_mask := if mask.length > channel_per_subband then
    mask.take channel_per_subband else mask
  match getE concat_mask 0 with
  | .error e => .error e
  | .ok first =>
    match pyLenOfInt first with
    | .error e => .error e
    | .ok k =>
      let chans2 := chans.take k
      .ok (assignAt channels (mask.take chans2.length) chans2)

/-- Model of `[g(x) for x in l]` where `g` may raise. -/
def mapExcept {α β : Type} (g : α → Except PyErr β) : List α → Except PyErr (List β)
  | [] => .ok []
  | x :: xs =>
    match g x, mapExcept g xs with
    | .ok y, .ok ys => .ok (y :: ys)
    | .error e, _ => .error e
    | .ok _, .error e => .error e

/-- Transcription of `assign_channels` (lines 593-626), with the
collaborator tables supplied: `centers` is the band's subband-center table
and `chansOf` the per-subband channel pools (`get_channels_in_subband`). -/
def assignChannels (freq : List ℚ) (centers : List ℚ) (chansOf : ℕ → List ℤ)
    (channel_per_subband : ℕ) : Except PyErr (List ℕ × List ℤ × List ℚ) :=
  match mapExcept (fun f => getClosestSubband f centers) freq with
  | .error e => .error e
  | .ok subbands =>
    let offsets := (freq.zip subbands).map (fun p => p.1 - centers.getD p.2 0)
    match foldStep (assignChannelsStep subbands chansOf channel_per_subband)
        (uniqueSorted subbands) (List.replicate freq.length (-1)) with
    | .error e => .error e
    | .ok channels => .ok (subbands, channels, offsets)

/-- One assembled resonance record of `tune_band`: the detection fields,
and the channel-assignment fields merged in afterwards (`none` before the
merge). -/
structure Resonance where
  freq : ℚ
  eta : Cq
  etaScaledSq : ℚ
  r2 : ℚ
  ampSq : List ℚ
  subband : Option ℕ
  channel : Option ℤ
  offset : Option ℚ
  deriving DecidableEq, Repr

/-- Assemble one pre-assignment resonance record of `tune_band`
(lines 79-85). -/
def mkResonance (p : ℚ) (e : EtaOut) : Resonance :=
  { freq := p
    eta := e.eta
    etaScaledSq := e.etaScaledSq
    r2 := e.r2
    ampSq := e.ampSq
    subband := none
    channel := none
    offset := none }

/-- Merge one channel-assignment triple into a record (lines 97-100). -/
def mergeAssign (r : Resonance) (t : ℕ × ℤ × ℚ) : Resonance :=
  { r with subband := some t.1, channel := some t.2.1, offset := some t.2.2 }

/-- Transcription of `tune_band` (lines 14-102) with acquisition bypassed
(`freq`/`resp` pre-supplied, as the determinism claim requires) and the
transcendental per-array data (`wangle = angle(resp)/π`, `amp = |resp|`,
`gradLocRaw` the raw gradient flags) supplied alongside.  `timestamp` only
reaches file names in the source, so it is accepted and ignored; plotting
and saving are side effects outside the returned mapping.  The eta window
is `delF = 0.2e6` and `subbandHalfWidth = 614.4/128 = 24/5` (line 77). -/
def tuneBand (_timestamp : String) (freq : List ℚ) (resp : List Cq)
    (wangle amp : List ℚ) (gradLocRaw : List Bool)
    (freq_min freq_max amp_cut : ℚ)
    (centers : List ℚ) (chansOf : ℕ → List ℤ) :
    Except PyErr (List (ℕ × Resonance)) :=
  match findPeak freq amp gradLocRaw freq_min freq_max amp_cut with
  | .error e => .error e
  | .ok (_, peaks) =>
    match mapExcept (fun p => etaFit freq resp wangle p 200000 (24/5)) peaks with
    | .error e => .error e
    | .ok etas =>
      let resonances : List (ℕ × Resonance) := (peaks.zip etas).enum.map (fun q =>
        (q.1, mkResonance q.2.1 q.2.2))
      let fMHz := resonances.map (fun r => r.2.freq * (1/1000000))
      match assignChannels fMHz centers chansOf 4 with
      | .error e => .error e
      | .ok (subbands, channels, offsets) =>
        .ok (resonances.zipWith (fun r t => (r.1, mergeAssign r.2 t))
          (subbands.zip (channels.zip offsets)))

/-- The procedure claim C5 describes for `pad_flags`: first expand each
True run by `before_pad` left / `after_pad` right clipped to bounds, then
merge (fill) any two adjacent runs whose gap after this expansion is
strictly less than `min_gap`. -/
def specPadFlagsC5 (f : List Bool) (before_pad after_pad : ℕ) (min_gap : ℤ) :
    Option (List Bool) :=
  match findFlagBlocksBase f with
  | none => none
  | some (S, E) =>
    let expanded := (S.zip E).foldl (fun acc p =>
      setRangeTrue acc (Int.ofNat p.1 - before_pad) (Int.ofNat p.2 + 1 + after_pad))
      (List.replicate f.length false)
    match findFlagBlocksBase expanded with
    | none => none
    | some (S', E') =>
      some ((S'.tail.zip E').foldl (fun acc q =>
        if (Int.ofNat q.1) - (Int.ofNat q.2 + 1) < min_gap then
          setRangeTrue acc (Int.ofNat q.2 + 1) (Int.ofNat q.1)
        else acc) expanded)

/-- All successive differences stay strictly below π in magnitude
(coefficients of π below 1): `np.unwrap` applies no correction then. -/
def smallDiffs (l : List ℚ) : Prop :=
  ∀ i, i + 1 < l.length → |l.getD (i+1) 0 - l.getD i 0| < 1

theorem cnt_succ (p : ℕ → Bool) (m : ℕ) :
    cnt p (m+1) = cnt p m + (if p m then 1 else 0) := by
  unfold cnt
  rw [List.range_succ, List.filter_append]
  cases h : p m <;> simp [h]

theorem cnt_succ_of_true {p : ℕ → Bool} {m : ℕ} (h : p m = true) :
    cnt p (m+1) = cnt p m + 1 := by
  rw [cnt_succ, h]; rfl

theorem cnt_mono (p : ℕ → Bool) {m m' : ℕ} (h : m ≤ m') : cnt p m ≤ cnt p m' := by
  induction m' with
  | zero => simp [Nat.le_zero.mp h]
  | succ k ih =>
    rcases Nat.lt_or_ge m (k+1) with hlt | hge
    · calc cnt p m ≤ cnt p k := ih (Nat.lt_succ_iff.mp hlt)
        _ ≤ cnt p (k+1) := by rw [cnt_succ]; omega
    · have : m = k + 1 := le_antisymm h hge
      simp [this]

theorem filterRange_length (p : ℕ → Bool) (n : ℕ) :
    ((List.range n).filter p).length = cnt p n := rfl

theorem filterRange_getD_lt (p : ℕ → Bool) (n : ℕ) {j : ℕ}
    (h : j < ((List.range n).filter p).length) :
    ((List.range n).filter p).getD j 0 < n ∧
      p (((List.range n).filter p).getD j 0) = true := by
  have hmem : ((List.range n).filter p).getD j 0 ∈ (List.range n).filter p := by
    rw [List.getD_eq_getElem _ _ h]
    exact List.getElem_mem _
  have := List.mem_filter.mp hmem
  exact ⟨List.mem_range.mp this.1, this.2⟩

theorem filterRange_getD_cnt (p : ℕ → Bool) :
    ∀ (n : ℕ) {j : ℕ}, (h : j < ((List.range n).filter p).length) →
      cnt p (((List.range n).filter p).getD j 0) = j := by
  intro n
  induction n with
  | zero => intro j h; simp [List.range_zero] at h
  | succ k ih =>
    intro j h
    rw [List.range_succ, List.filter_append] at h ⊢
    rcases Nat.lt_or_ge j (((List.range k).filter p).length) with hlt | hge
    · rw [List.getD_append _ _ _ _ hlt]
      exact ih hlt
    · have hpk : p k = true := by
        by_contra hpk
        simp [List.filter, Bool.of_not_eq_true hpk] at h
        omega
      have hlen : (List.filter p [k]).length = 1 := by simp [List.filter, hpk]
      have hj : j = ((List.range k).filter p).length := by
        rw [List.length_append, hlen] at h; omega
      have : (((List.range k).filter p) ++ List.filter p [k]).getD j 0 = k := by
        rw [List.getD_append_right _ _ _ _ (hj ▸ le_refl _), hj]
        simp [List.filter, hpk]
      rw [this, hj]
      rfl

theorem isStart_getD_false {f : List Bool} {i : ℕ} (h : f.getD i false = false) :
    isStart f i = false := by
  unfold isStart
  rw [h]
  rfl

theorem isEnd_getD_false {f : List Bool} {i : ℕ} (h : f.getD i false = false) :
    isEnd f i = false := by
  unfold isEnd
  rw [h]
  rfl

theorem isEnd_true_getD {f : List Bool} {i : ℕ} (h : isEnd f i = true) :
    f.getD i false = true := by
  have := (Bool.and_eq_true _ _).mp h
  exact this.1

theorem isStart_true_getD {f : List Bool} {i : ℕ} (h : isStart f i = true) :
    f.getD i false = true := by
  have := (Bool.and_eq_true _ _).mp h
  exact this.1

/-- The counting invariant tying run starts and run ends together:
the number of starts in `[0, m]` exceeds the number of ends in `[0, m)`
exactly when position `m` is inside a run. -/
theorem startEnd_invariant (f : List Bool) :
    ∀ m, cnt (isStart f) (m+1) = cnt (isEnd f) m + (if f.getD m false then 1 else 0) := by
  intro m
  induction m with
  | zero =>
    have h0 : isStart f 0 = f.getD 0 false := by
      unfold isStart
      simp
    rw [cnt_succ, h0]
    simp [cnt]
  | succ k ih =>
    rw [cnt_succ (isStart f) (k+1), cnt_succ (isEnd f) k, ih]
    have hstart : isStart f (k+1) = (f.getD (k+1) false && !(f.getD k false)) := by
      unfold isStart
      simp
    have hend : isEnd f k = (f.getD k false && !(f.getD (k+1) false)) := rfl
    cases h1 : f.getD k false <;> cases h2 : f.getD (k+1) false <;>
      simp only [hstart, hend, h1, h2] <;> simp <;> omega

/-- Equally many run starts as run ends. -/
theorem startsOf_length_eq (f : List Bool) : (startsOf f).length = (endsOf f).length := by
  unfold startsOf endsOf
  rw [filterRange_length, filterRange_length]
  cases hn : f.length with
  | zero => rfl
  | succ m =>
    have hinv := startEnd_invariant f m
    have hout : f.getD (m+1) false = false := by
      apply List.getD_eq_default
      omega
    have hendm : isEnd f m = f.getD m false := by
      unfold isEnd
      rw [hout]
      simp
    rw [cnt_succ (isEnd f) m, hinv, hendm]

theorem startsOf_length (f : List Bool) :
    (startsOf f).length = cnt (isStart f) f.length := rfl

theorem endsOf_length (f : List Bool) :
    (endsOf f).length = cnt (isEnd f) f.length := rfl

theorem startsOf_getD_lt (f : List Bool) {j : ℕ} (hj : j < (startsOf f).length) :
    (startsOf f).getD j 0 < f.length ∧ isStart f ((startsOf f).getD j 0) = true :=
  filterRange_getD_lt (isStart f) f.length hj

theorem endsOf_getD_lt (f : List Bool) {j : ℕ} (hj : j < (endsOf f).length) :
    (endsOf f).getD j 0 < f.length ∧ isEnd f ((endsOf f).getD j 0) = true :=
  filterRange_getD_lt (isEnd f) f.length hj

theorem startsOf_getD_cnt (f : List Bool) {j : ℕ} (hj : j < (startsOf f).length) :
    cnt (isStart f) ((startsOf f).getD j 0) = j :=
  filterRange_getD_cnt (isStart f) f.length hj

theorem endsOf_getD_cnt (f : List Bool) {j : ℕ} (hj : j < (endsOf f).length) :
    cnt (isEnd f) ((endsOf f).getD j 0) = j :=
  filterRange_getD_cnt (isEnd f) f.length hj

/-- The j-th run start is at most the j-th run end. -/
theorem startsOf_le_endsOf (f : List Bool) {j : ℕ} (hj : j < (endsOf f).length) :
    (startsOf f).getD j 0 ≤ (endsOf f).getD j 0 := by
  have hlt := endsOf_getD_lt f hj
  have hcnt : cnt (isEnd f) ((endsOf f).getD j 0) = j := endsOf_getD_cnt f hj
  have hfe : f.getD ((endsOf f).getD j 0) false = true := isEnd_true_getD hlt.2
  have hinv := startEnd_invariant f ((endsOf f).getD j 0)
  rw [hcnt, hfe] at hinv
  rw [show (if true = true then 1 else 0) = 1 from rfl] at hinv
  by_contra hcon
  push_neg at hcon
  have hjs : j < (startsOf f).length := by
    rw [startsOf_length_eq]; exact hj
  have hs : cnt (isStart f) ((startsOf f).getD j 0) = j := startsOf_getD_cnt f hjs
  have hmono : cnt (isStart f) ((endsOf f).getD j 0 + 1) ≤
      cnt (isStart f) ((startsOf f).getD j 0) := cnt_mono _ (by omega)
  rw [hinv, hs] at hmono
  omega

/-- The j-th run end lies strictly before the (j+1)-st run start. -/
theorem endsOf_lt_startsOf_succ (f : List Bool) {j : ℕ}
    (hj : j + 1 < (startsOf f).length) :
    (endsOf f).getD j 0 < (startsOf f).getD (j+1) 0 := by
  have hlt := startsOf_getD_lt f hj
  have hcnt : cnt (isStart f) ((startsOf f).getD (j+1) 0) = j + 1 := startsOf_getD_cnt f hj
  have hssucc : cnt (isStart f) ((startsOf f).getD (j+1) 0 + 1) = j + 2 := by
    rw [cnt_succ_of_true hlt.2, hcnt]
  have hje : j < (endsOf f).length := by
    rw [← startsOf_length_eq]; omega
  have he : cnt (isEnd f) ((endsOf f).getD j 0) = j := endsOf_getD_cnt f hje
  by_contra hcon
  push_neg at hcon
  have hinv := startEnd_invariant f ((endsOf f).getD j 0)
  have hfe : f.getD ((endsOf f).getD j 0) false = true :=
    isEnd_true_getD (endsOf_getD_lt f hje).2
  rw [he, hfe] at hinv
  rw [show (if true = true then 1 else 0) = 1 from rfl] at hinv
  have hmono : cnt (isStart f) ((startsOf f).getD (j+1) 0 + 1) ≤
      cnt (isStart f) ((endsOf f).getD j 0 + 1) := cnt_mono _ (by omega)
  rw [hssucc, hinv] at hmono
  omega

/-- Every True position of `f` is inside one of its blocks. -/
theorem cover_block (f : List Bool) {i : ℕ} (hi : f.getD i false = true) :
    ∃ j, j < (startsOf f).length ∧ j < (endsOf f).length ∧
      (startsOf f).getD j 0 ≤ i ∧ i ≤ (endsOf f).getD j 0 := by
  have hilen : i < f.length := by
    by_contra hc
    rw [List.getD_eq_default _ _ (by omega)] at hi
    exact Bool.false_ne_true hi
  have hinv := startEnd_invariant f i
  rw [hi] at hinv
  rw [show (if true = true then 1 else 0) = 1 from rfl] at hinv
  have hSn : cnt (isStart f) (i+1) ≤ cnt (isStart f) f.length := cnt_mono _ (by omega)
  have hlenS : (startsOf f).length = cnt (isStart f) f.length := startsOf_length f
  have hlenE : (endsOf f).length = (startsOf f).length := (startsOf_length_eq f).symm
  have hjS : cnt (isEnd f) i + 1 ≤ (startsOf f).length := by omega
  have hjE : cnt (isEnd f) i < (endsOf f).length := by omega
  refine ⟨cnt (isEnd f) i, by omega, hjE, ?_, ?_⟩
  · by_contra hcon
    push_neg at hcon
    have hs : cnt (isStart f) ((startsOf f).getD (cnt (isEnd f) i) 0) = cnt (isEnd f) i :=
      startsOf_getD_cnt f (by omega)
    have hmono : cnt (isStart f) (i+1) ≤
        cnt (isStart f) ((startsOf f).getD (cnt (isEnd f) i) 0) := cnt_mono _ (by omega)
    rw [hinv, hs] at hmono
    omega
  · by_contra hcon
    push_neg at hcon
    have he : cnt (isEnd f) ((endsOf f).getD (cnt (isEnd f) i) 0) = cnt (isEnd f) i :=
      endsOf_getD_cnt f hjE
    have hesucc : cnt (isEnd f) ((endsOf f).getD (cnt (isEnd f) i) 0 + 1) =
        cnt (isEnd f) i + 1 := by
      rw [cnt_succ_of_true (endsOf_getD_lt f hjE).2, he]
    have hmono : cnt (isEnd f) ((endsOf f).getD (cnt (isEnd f) i) 0 + 1) ≤
        cnt (isEnd f) i := cnt_mono _ (by omega)
    rw [hesucc] at hmono
    omega

theorem npDiff_length (l : List ℤ) : (npDiff l).length = l.length - 1 := by
  simp [npDiff]

theorem filter_map_succ (p : ℕ → Bool) (l : List ℕ) :
    (l.map (· + 1)).filter p = (l.filter (fun i => p (i+1))).map (· + 1) := by
  induction l with
  | nil => rfl
  | cons y ys ih =>
    simp only [List.map_cons, List.filter_cons]
    cases h : p (y+1) <;> simp [h, ih]

theorem get?_of_lt {α : Type} (l : List α) (d : α) {j : ℕ} (hj : j < l.length) :
    l.get? j = some (l.getD j d) := by
  rw [List.getD_eq_getElem _ _ hj, List.get?_eq_getElem?, List.getElem?_eq_getElem hj]

theorem marks_get? (x : Bool) (xs : List Bool) {i : ℕ} (hi : i < xs.length) :
    (npDiff ((x :: xs).map boolInt)).get? i =
      some (boolInt ((x :: xs).getD (i+1) false) - boolInt ((x :: xs).getD i false)) := by
  unfold npDiff
  rw [show ((x :: xs).map boolInt).tail = xs.map boolInt from rfl,
    List.get?_zipWith', List.get?_map, List.get?_map,
    get?_of_lt xs false hi, get?_of_lt (x :: xs) false (by simp; omega)]
  have hcons : (x :: xs).getD (i+1) false = xs.getD i false := rfl
  rw [hcons]
  rfl

theorem whereIdx_marks_start (x : Bool) (xs : List Bool) :
    whereIdx (fun z => z == 1) (npDiff ((x :: xs).map boolInt)) =
      (List.range xs.length).filter (fun i => isStart (x :: xs) (i+1)) := by
  unfold whereIdx
  rw [show (npDiff ((x :: xs).map boolInt)).length = xs.length by
    rw [npDiff_length]; simp]
  apply List.filter_congr
  intro i hi
  have hi' := List.mem_range.mp hi
  rw [marks_get? x xs hi']
  have hstart : isStart (x :: xs) (i+1) =
      ((x :: xs).getD (i+1) false && !((x :: xs).getD i false)) := by
    unfold isStart
    simp
  rw [hstart]
  cases h2 : (x :: xs).getD (i+1) false <;> cases h1 : (x :: xs).getD i false <;>
    simp [boolInt, h1, h2]

theorem whereIdx_marks_end (x : Bool) (xs : List Bool) :
    whereIdx (fun z => z == -1) (npDiff ((x :: xs).map boolInt)) =
      (List.range xs.length).filter (fun i => isEnd (x :: xs) i) := by
  unfold whereIdx
  rw [show (npDiff ((x :: xs).map boolInt)).length = xs.length by
    rw [npDiff_length]; simp]
  apply List.filter_congr
  intro i hi
  have hi' := List.mem_range.mp hi
  rw [marks_get? x xs hi']
  have hend : isEnd (x :: xs) i =
      ((x :: xs).getD i false && !((x :: xs).getD (i+1) false)) := rfl
  rw [hend]
  cases h2 : (x :: xs).getD (i+1) false <;> cases h1 : (x :: xs).getD i false <;>
    simp [boolInt, h1, h2]

/-- The function `find_flag_blocks` (base path) computes exactly the run starts and run ends. -/
theorem findFlagBlocksBase_eq (flag : List Bool) (hne : flag ≠ []) :
    findFlagBlocksBase flag = some (startsOf flag, endsOf flag) := by
  obtain ⟨x, xs, rfl⟩ := List.exists_cons_of_ne_nil hne
  have hlast : (x :: xs).getLast? = some ((x :: xs).getD xs.length false) := by
    rw [List.getLast?_eq_getElem?]
    simp only [List.length_cons, Nat.add_sub_cancel]
    rw [List.getD_eq_getElem _ _ (by simp), List.getElem?_eq_getElem (by simp)]
  unfold findFlagBlocksBase
  rw [hlast]
  simp only [List.head?_cons]
  have hstarts : startsOf (x :: xs) =
      (if x then
        0 :: ((whereIdx (fun z => z == 1) (npDiff ((x :: xs).map boolInt))).map (· + 1))
      else
        ((whereIdx (fun z => z == 1) (npDiff ((x :: xs).map boolInt))).map (· + 1))) := by
    rw [whereIdx_marks_start, ← filter_map_succ]
    unfold startsOf
    rw [show (x :: xs).length = xs.length + 1 from rfl, List.range_succ_eq_map,
      List.filter_cons]
    have h0 : isStart (x :: xs) 0 = x := by
      unfold isStart
      simp [List.getD]
    rw [h0]
  have hends : endsOf (x :: xs) =
      (if (x :: xs).getD xs.length false then
        (whereIdx (fun z => z == -1) (npDiff ((x :: xs).map boolInt))) ++ [(x :: xs).length - 1]
      else
        (whereIdx (fun z => z == -1) (npDiff ((x :: xs).map boolInt)))) := by
    rw [whereIdx_marks_end]
    unfold endsOf
    rw [show (x :: xs).length = xs.length + 1 from rfl, List.range_succ,
      List.filter_append]
    have hlastEnd : isEnd (x :: xs) xs.length = (x :: xs).getD xs.length false := by
      unfold isEnd
      rw [List.getD_eq_default _ _ (show (x :: xs).length ≤ xs.length + 1 from le_refl _)]
      simp
    have hsingle : List.filter (fun i => isEnd (x :: xs) i) [xs.length] =
        (if (x :: xs).getD xs.length false then [xs.length] else []) := by
      rw [show List.filter (fun i => isEnd (x :: xs) i) [xs.length] =
          (if isEnd (x :: xs) xs.length then [xs.length] else []) from by
        rw [List.filter_cons]
        cases h : isEnd (x :: xs) xs.length <;> simp [h]]
      rw [hlastEnd]
    rw [hsingle]
    cases hx : (x :: xs).getD xs.length false <;> simp
  rw [hstarts, hends]

theorem setRangeTrue_length (l : List Bool) (lo hi : ℤ) :
    (setRangeTrue l lo hi).length = l.length := by
  simp [setRangeTrue, List.length_mapIdx]

theorem paintBlocks_length (bp ap : ℕ) (ml : ℤ) (pairs : List (ℤ × ℤ))
    (init : List Bool) :
    (paintBlocks bp ap ml pairs init).length = init.length := by
  induction pairs generalizing init with
  | nil => rfl
  | cons p ps ih =>
    unfold paintBlocks
    rw [List.foldl_cons]
    by_cases h : (p.2 - ap) - (p.1 + bp) > ml
    · rw [if_pos h]
      rw [show List.foldl _ (setRangeTrue init p.1 p.2) ps =
        paintBlocks bp ap ml ps (setRangeTrue init p.1 p.2) from rfl]
      rw [ih, setRangeTrue_length]
    · rw [if_neg h]
      exact ih init

theorem getD_map_of_lt {α β : Type} (g : α → β) (l : List α) (d : α) (d' : β)
    {j : ℕ} (hj : j < l.length) :
    (l.map g).getD j d' = g (l.getD j d) := by
  rw [List.getD_eq_getElem _ _ (by simpa using hj), List.getD_eq_getElem _ _ hj,
    List.getElem_map]

theorem setRangeTrue_getD (l : List Bool) (lo hi : ℤ) (i : ℕ) :
    (setRangeTrue l lo hi).getD i false =
      (if lo ≤ (i:ℤ) ∧ (i:ℤ) < hi ∧ i < l.length then true else l.getD i false) := by
  by_cases hlen : i < l.length
  · have h1 : (setRangeTrue l lo hi).getD i false =
        (if lo ≤ (i:ℤ) ∧ (i:ℤ) < hi then true else l.get ⟨i, hlen⟩) := by
      rw [List.getD_eq_get _ _ (by rw [setRangeTrue_length]; exact hlen)]
      exact List.get_mapIdx l _ i hlen
    rw [h1, List.getD_eq_get _ _ hlen]
    by_cases harith : lo ≤ (i:ℤ) ∧ (i:ℤ) < hi
    · rw [if_pos harith, if_pos ⟨harith.1, harith.2, hlen⟩]
    · rw [if_neg harith, if_neg (by tauto)]
  · rw [List.getD_eq_default _ _ (by rw [setRangeTrue_length]; omega),
      if_neg (by tauto), List.getD_eq_default _ _ (by omega)]

theorem paintBlocks_getD (bp ap : ℕ) (ml : ℤ) :
    ∀ (pairs : List (ℤ × ℤ)) (init : List Bool) (i : ℕ),
      ((paintBlocks bp ap ml pairs init).getD i false = true ↔
        (init.getD i false = true ∨ ∃ p ∈ pairs,
          (p.2 - (ap:ℤ)) - (p.1 + (bp:ℤ)) > ml ∧ p.1 ≤ (i:ℤ) ∧ (i:ℤ) < p.2 ∧
            i < init.length)) := by
  intro pairs
  induction pairs with
  | nil => simp [paintBlocks]
  | cons p ps ih =>
    intro init i
    unfold paintBlocks
    rw [List.foldl_cons]
    by_cases hc : (p.2 - (ap:ℤ)) - (p.1 + (bp:ℤ)) > ml
    · rw [if_pos hc]
      rw [show List.foldl (fun acc q =>
          if (q.2 - (ap:ℤ)) - (q.1 + (bp:ℤ)) > ml then setRangeTrue acc q.1 q.2
          else acc) (setRangeTrue init p.1 p.2) ps =
        paintBlocks bp ap ml ps (setRangeTrue init p.1 p.2) from rfl]
      rw [ih (setRangeTrue init p.1 p.2) i, setRangeTrue_getD,
        setRangeTrue_length]
      constructor
      · rintro (hcase | ⟨q, hq, hqrest⟩)
        · by_cases hin : p.1 ≤ (i:ℤ) ∧ (i:ℤ) < p.2 ∧ i < init.length
          · exact Or.inr ⟨p, List.mem_cons_self p ps, hc, hin.1, hin.2.1, hin.2.2⟩
          · rw [if_neg hin] at hcase
            exact Or.inl hcase
        · exact Or.inr ⟨q, List.mem_cons_of_mem p hq, hqrest⟩
      · rintro (hcase | ⟨q, hq, hq1, hq2, hq3, hq4⟩)
        · by_cases hin : p.1 ≤ (i:ℤ) ∧ (i:ℤ) < p.2 ∧ i < init.length
          · rw [if_pos hin]
            exact Or.inl rfl
          · rw [if_neg hin]
            exact Or.inl hcase
        · rcases List.mem_cons.mp hq with rfl | hq'
          · refine Or.inl ?_
            rw [if_pos ⟨hq2, hq3, hq4⟩]
          · exact Or.inr ⟨q, hq', hq1, hq2, hq3, hq4⟩
    · rw [if_neg hc]
      rw [show List.foldl (fun acc q =>
          if (q.2 - (ap:ℤ)) - (q.1 + (bp:ℤ)) > ml then setRangeTrue acc q.1 q.2
          else acc) init ps =
        paintBlocks bp ap ml ps init from rfl]
      rw [ih init i]
      constructor
      · rintro (hcase | ⟨q, hq, hqrest⟩)
        · exact Or.inl hcase
        · exact Or.inr ⟨q, List.mem_cons_of_mem p hq, hqrest⟩
      · rintro (hcase | ⟨q, hq, hq1, hq2, hq3, hq4⟩)
        · exact Or.inl hcase
        · rcases List.mem_cons.mp hq with rfl | hq'
          · exact absurd hq1 hc
          · exact Or.inr ⟨q, hq', hq1, hq2, hq3, hq4⟩

theorem mergeAfters_length (b a : List ℤ) (g : ℤ) :
    (mergeAfters b a g).length = a.length := by
  simp [mergeAfters, List.length_mapIdx]

theorem mergeAfters_getD (b a : List ℤ) (g : ℤ) {j : ℕ} (hj : j < a.length) :
    (mergeAfters b a g).getD j 0 =
      (match b.get? (j+1) with
        | some bn => if bn - a.getD j 0 < g then bn else a.getD j 0
        | none => a.getD j 0) := by
  rw [List.getD_eq_get _ _ (by rw [mergeAfters_length]; exact hj)]
  rw [show (mergeAfters b a g).get ⟨j, by rw [mergeAfters_length]; exact hj⟩ =
    (match b.get? (j+1) with
      | some bn => if bn - a.get ⟨j, hj⟩ < g then bn else a.get ⟨j, hj⟩
      | none => a.get ⟨j, hj⟩) from List.get_mapIdx a _ j hj]
  rw [List.getD_eq_get _ _ hj]

theorem mergedAfters_length (f : List Bool) (mg : ℤ) :
    (mergedAfters f mg).length = (endsOf f).length := by
  rw [mergedAfters, mergeAfters_length, List.length_map]

/-- Evaluating `pad_flags` on a non-empty input, written via the named block lists. -/
theorem padFlags_eq (f : List Bool) (hne : f ≠ []) (bp ap : ℕ) (mg ml : ℤ) :
    padFlags f bp ap mg ml = some (paintBlocks bp ap ml
      ((((startsOf f).map (fun s => Int.ofNat s)).map (fun b => b - (bp:ℤ))).zip
        ((mergedAfters f mg).map (fun a => a + (ap:ℤ))))
      (List.replicate f.length false)) := by
  unfold padFlags
  rw [findFlagBlocksBase_eq f hne]
  rfl

/-- Each merged end stays at or above the exclusive end of its own run. -/
theorem mergedAfters_getD_ge (f : List Bool) (mg : ℤ) {j : ℕ}
    (hj : j < (endsOf f).length) :
    Int.ofNat ((endsOf f).getD j 0) + 1 ≤ (mergedAfters f mg).getD j 0 := by
  have hj' : j < ((endsOf f).map (fun e => Int.ofNat e + 1)).length := by
    rw [List.length_map]; exact hj
  rw [mergedAfters, mergeAfters_getD _ _ _ hj']
  rw [getD_map_of_lt (fun e => Int.ofNat e + 1) (endsOf f) 0 0 hj]
  cases hb : ((startsOf f).map (fun s => Int.ofNat s)).get? (j+1) with
  | none => simp
  | some bn =>
    have hlt : j + 1 < ((startsOf f).map (fun s => Int.ofNat s)).length :=
      (List.get?_eq_some.mp hb).1
    have hjlt : j + 1 < (startsOf f).length := by simpa using hlt
    have hbn : bn = Int.ofNat ((startsOf f).getD (j+1) 0) := by
      rcases List.get?_eq_some.mp hb with ⟨hlt2, hget⟩
      rw [← hget, List.get_map, ← List.getD_eq_get _ 0]
    have hlt3 : (endsOf f).getD j 0 < (startsOf f).getD (j+1) 0 :=
      endsOf_lt_startsOf_succ f hjlt
    simp only []
    by_cases hcond : bn - (Int.ofNat ((endsOf f).getD j 0) + 1) < mg
    · rw [if_pos hcond, hbn]
      simp only [Int.ofNat_eq_natCast]
      omega
    · rw [if_neg hcond]

theorem getD_replicate_false (n i : ℕ) :
    (List.replicate n false).getD i false = false := by
  by_cases h : i < n
  · rw [List.getD_eq_getElem _ _ (by simpa using h), List.getElem_replicate]
  · rw [List.getD_eq_default _ _ (by simpa using h)]

/-- Condition under which `pad_flags` (with `min_length = 0`) sets an output
position: the position lies in some merged block expanded by the pads. -/
theorem padFlags_getD_iff (f : List Bool) (hne : f ≠ []) (bp ap : ℕ) (mg : ℤ)
    (out : List Bool) (hout : padFlags f bp ap mg 0 = some out) (i : ℕ) :
    (out.getD i false = true ↔
      ∃ j, j < (startsOf f).length ∧ j < (endsOf f).length ∧
        Int.ofNat ((startsOf f).getD j 0) - bp ≤ (i:ℤ) ∧
        (i:ℤ) < (mergedAfters f mg).getD j 0 + ap ∧ i < f.length) := by
  rw [padFlags_eq f hne bp ap mg 0] at hout
  have hout' := Option.some.inj hout
  rw [← hout', paintBlocks_getD, getD_replicate_false, List.length_replicate]
  have hSlen : (((startsOf f).map (fun s => Int.ofNat s)).map
      (fun b => b - (bp:ℤ))).length = (startsOf f).length := by
    rw [List.length_map, List.length_map]
  have hAlen : ((mergedAfters f mg).map (fun a => a + (ap:ℤ))).length =
      (endsOf f).length := by
    rw [List.length_map, mergedAfters_length]
  constructor
  · rintro (hfalse | ⟨p, hp, hcond, h1, h2, h3⟩)
    · exact absurd hfalse (by simp)
    · rcases List.mem_iff_getElem.mp hp with ⟨j, hjlt, hpj⟩
      have hjlt' := hjlt
      rw [List.length_zip, hSlen, hAlen] at hjlt'
      have hjS : j < (startsOf f).length := lt_of_lt_of_le hjlt' (min_le_left _ _)
      have hjE : j < (endsOf f).length := lt_of_lt_of_le hjlt' (min_le_right _ _)
      have hpval : p = (Int.ofNat ((startsOf f).getD j 0) - bp,
          (mergedAfters f mg).getD j 0 + ap) := by
        rw [← hpj, List.getElem_zip, List.getElem_map, List.getElem_map,
          List.getElem_map]
        rw [List.getD_eq_getElem _ _ hjS,
          List.getD_eq_getElem _ _ (by rw [mergedAfters_length]; exact hjE)]
      rw [hpval] at h1 h2
      exact ⟨j, hjS, hjE, h1, h2, h3⟩
  · rintro ⟨j, hjS, hjE, h1, h2, h3⟩
    refine Or.inr ⟨(Int.ofNat ((startsOf f).getD j 0) - bp,
      (mergedAfters f mg).getD j 0 + ap), ?_, ?_, h1, h2, h3⟩
    · apply List.mem_iff_getElem.mpr
      refine ⟨j, ?_, ?_⟩
      · rw [List.length_zip, hSlen, hAlen]
        omega
      · rw [List.getElem_zip, List.getElem_map, List.getElem_map,
          List.getElem_map]
        rw [List.getD_eq_getElem _ _ hjS,
          List.getD_eq_getElem _ _ (by rw [mergedAfters_length]; exact hjE)]
    · have hge := mergedAfters_getD_ge f mg hjE
      have hse := startsOf_le_endsOf f hjE
      simp only [Int.ofNat_eq_natCast] at *
      omega

/-- The function `pad_flags` with `min_length = 0` keeps every flag that was set
(monotonicity), and preserves the length. -/
theorem padFlags_covers (f : List Bool) (hne : f ≠ []) (bp ap : ℕ) (mg : ℤ) :
    ∃ out, padFlags f bp ap mg 0 = some out ∧ out.length = f.length ∧
      ∀ i, f.getD i false = true → out.getD i false = true := by
  refine ⟨_, padFlags_eq f hne bp ap mg 0, ?_, ?_⟩
  · rw [paintBlocks_length, List.length_replicate]
  · intro i hi
    have hilen : i < f.length := by
      by_contra hc
      rw [List.getD_eq_default _ _ (by omega)] at hi
      exact Bool.false_ne_true hi
    rw [padFlags_getD_iff f hne bp ap mg _ (padFlags_eq f hne bp ap mg 0) i]
    rcases cover_block f hi with ⟨j, hjS, hjE, hsle, hle⟩
    refine ⟨j, hjS, hjE, ?_, ?_, hilen⟩
    · simp only [Int.ofNat_eq_natCast]
      omega
    · have hge := mergedAfters_getD_ge f mg hjE
      simp only [Int.ofNat_eq_natCast] at hge ⊢
      omega

theorem findFlagBlocksBase_spec (flag : List Bool) (hne : flag ≠ []) :
    ∃ S E, findFlagBlocksBase flag = some (S, E) ∧ S.length = E.length ∧
      ∀ j, j < S.length → S.getD j 0 ≤ E.getD j 0 ∧ E.getD j 0 + 1 ≤ flag.length := by
  refine ⟨startsOf flag, endsOf flag, findFlagBlocksBase_eq flag hne,
    startsOf_length_eq flag, ?_⟩
  intro j hj
  have hjE : j < (endsOf flag).length := by
    rw [← startsOf_length_eq]; exact hj
  refine ⟨startsOf_le_endsOf flag hjE, ?_⟩
  have := (endsOf_getD_lt flag hjE).1
  omega

theorem filtered_pairs_spec (S E : List ℕ) (n : ℕ) (pred : ℕ × ℕ → Bool)
    (hlen : S.length = E.length)
    (hb : ∀ j, j < S.length → S.getD j 0 ≤ E.getD j 0 ∧ E.getD j 0 + 1 ≤ n) :
    (((S.zip E).filter pred).map Prod.fst).length =
      (((S.zip E).filter pred).map Prod.snd).length ∧
    ∀ j, j < (((S.zip E).filter pred).map Prod.fst).length →
      (((S.zip E).filter pred).map Prod.fst).getD j 0 ≤
        (((S.zip E).filter pred).map Prod.snd).getD j 0 ∧
      (((S.zip E).filter pred).map Prod.snd).getD j 0 + 1 ≤ n := by
  constructor
  · rw [List.length_map, List.length_map]
  · intro j hj
    rw [List.length_map] at hj
    rw [getD_map_of_lt Prod.fst _ (0,0) 0 hj, getD_map_of_lt Prod.snd _ (0,0) 0 hj]
    have hmem : ((S.zip E).filter pred).getD j (0,0) ∈ (S.zip E).filter pred := by
      rw [List.getD_eq_getElem _ _ hj]
      exact List.getElem_mem _
    have hzip := (List.mem_filter.mp hmem).1
    rcases List.mem_iff_getElem.mp hzip with ⟨k, hk, hkeq⟩
    have hkS : k < S.length := by
      rw [List.length_zip] at hk
      omega
    have hkE : k < E.length := by
      rw [List.length_zip] at hk
      omega
    have hkval : (S.zip E)[k] = (S.getD k 0, E.getD k 0) := by
      rw [List.getElem_zip, List.getD_eq_getElem _ _ hkS, List.getD_eq_getElem _ _ hkE]
    rw [hkval] at hkeq
    rw [← hkeq]
    exact hb k hkS

theorem findFlagBlocksPre_spec (flag : List Bool) (hne : flag ≠ [])
    (min_gap : Option ℤ) :
    ∃ S E, findFlagBlocksPre flag min_gap = some (S, E) ∧ S.length = E.length ∧
      ∀ j, j < S.length → S.getD j 0 ≤ E.getD j 0 ∧ E.getD j 0 + 1 ≤ flag.length := by
  cases min_gap with
  | none => exact findFlagBlocksBase_spec flag hne
  | some g =>
    obtain ⟨out, hout, hlen, _⟩ := padFlags_covers flag hne 0 0 g
    have houtne : out ≠ [] := by
      have h0 : 0 < out.length := by
        rw [hlen]
        exact List.length_pos.mpr hne
      exact List.length_pos.mp h0
    obtain ⟨S0, E0, h1, h2, h3⟩ := findFlagBlocksBase_spec out houtne
    refine ⟨S0, E0, ?_, h2, ?_⟩
    · show (match padFlags flag 0 0 g 0 with
        | none => none
        | some padded => findFlagBlocksBase padded) = some (S0, E0)
      rw [hout]
      exact h1
    · intro j hj
      have := h3 j hj
      rw [hlen] at this
      exact this

theorem findFlagBlocks_spec (flag : List Bool) (hne : flag ≠ [])
    (minimum min_gap : Option ℤ) :
    ∃ S E, findFlagBlocks flag minimum min_gap = some (S, E) ∧ S.length = E.length ∧
      ∀ j, j < S.length → S.getD j 0 ≤ E.getD j 0 ∧ E.getD j 0 + 1 ≤ flag.length := by
  obtain ⟨S0, E0, h1, h2, h3⟩ := findFlagBlocksPre_spec flag hne min_gap
  unfold findFlagBlocks
  rw [h1]
  cases minimum with
  | none => exact ⟨S0, E0, rfl, h2, h3⟩
  | some m =>
    have hfp := filtered_pairs_spec S0 E0 flag.length
      (fun p => ((p.2 : ℤ) - (p.1 : ℤ) + 1) > m) h2 h3
    exact ⟨_, _, rfl, hfp.1, hfp.2⟩

theorem findFlagBlocks_nil (minimum min_gap : Option ℤ) :
    findFlagBlocks [] minimum min_gap = none := by
  cases min_gap <;> cases minimum <;> rfl

theorem whereIdx_eq_nil {α : Type} (p : α → Bool) (l : List α)
    (h : ∀ x ∈ l, p x = false) : whereIdx p l = [] := by
  unfold whereIdx
  apply List.filter_eq_nil.mpr
  intro i _
  cases hget : l.get? i with
  | none => simp
  | some x =>
    have hx : x ∈ l := List.get?_mem hget
    simp [h x hx]

theorem whereIdx_ne_nil {α : Type} (p : α → Bool) (l : List α) {x : α}
    (hx : x ∈ l) (hp : p x = true) : whereIdx p l ≠ [] := by
  rcases List.mem_iff_get.mp hx with ⟨⟨i, hi⟩, hget⟩
  intro hnil
  have hmem : i ∈ whereIdx p l := by
    unfold whereIdx
    apply List.mem_filter.mpr
    refine ⟨List.mem_range.mpr hi, ?_⟩
    rw [List.get?_eq_get hi, hget]
    exact hp
  rw [hnil] at hmem
  exact List.not_mem_nil i hmem

theorem whereIdx_mem_lt {α : Type} (p : α → Bool) (l : List α) {i : ℕ}
    (h : i ∈ whereIdx p l) : i < l.length := by
  unfold whereIdx at h
  exact List.mem_range.mp (List.mem_filter.mp h).1

theorem leftIdx_lt (freq : List ℚ) (pf delF : ℚ) (hne : freq ≠ []) :
    leftIdx freq pf delF < freq.length := by
  unfold leftIdx
  cases hlast : (whereIdx (fun x => decide (x < pf - delF)) freq).getLast? with
  | none =>
    simp only [Option.getD_none]
    exact List.length_pos.mpr hne
  | some i =>
    simp only [Option.getD_some]
    have hmem : i ∈ (whereIdx (fun x => decide (x < pf - delF)) freq).getLast? :=
      Option.mem_def.mpr hlast
    obtain ⟨hnn, heq⟩ := List.mem_getLast?_eq_getLast hmem
    exact whereIdx_mem_lt _ _ (heq ▸ List.getLast_mem hnn)

/-- C6: in `eta_fit`, when no frequency exceeds `peak_freq + delF`, the
call fails with the boundary IndexError (the `try` does not cover it);
when no frequency is below `peak_freq - delF`, `left` is 0; and when the
right boundary exists (and `resp` is parallel to `freq`) the call
succeeds. -/
theorem C6_eta_window (freq : List ℚ) (resp : List Cq) (wangle : List ℚ)
    (pf delF shw : ℚ) (hin : pf ∈ freq) :
    ((∀ x ∈ freq, ¬(x > pf + delF)) →
      etaFit freq resp wangle pf delF shw = .error .indexOOB) ∧
    ((∀ x ∈ freq, ¬(x < pf - delF)) → leftIdx freq pf delF = 0) ∧
    ((∃ x ∈ freq, x > pf + delF) → resp.length = freq.length →
      ∃ out, etaFit freq resp wangle pf delF shw = .ok out) := by
  have hminIdx : ∃ m, (whereIdx (fun x => x == pf) freq).head? = some m := by
    have hne := whereIdx_ne_nil (fun x => x == pf) freq hin (by simp)
    cases hh : (whereIdx (fun x => x == pf) freq).head? with
    | none => exact absurd (List.head?_eq_none_iff.mp hh) hne
    | some m => exact ⟨m, rfl⟩
  obtain ⟨m, hm⟩ := hminIdx
  refine ⟨?_, ?_, ?_⟩
  · intro hnone
    have hr : rightIdx? freq pf delF = none := by
      unfold rightIdx?
      rw [whereIdx_eq_nil _ _ (by
        intro x hx
        simpa using hnone x hx)]
      rfl
    unfold etaFit
    rw [hm, hr]
  · intro hnone
    unfold leftIdx
    rw [whereIdx_eq_nil _ _ (by
      intro x hx
      simpa using hnone x hx)]
    rfl
  · rintro ⟨x, hx, hgt⟩ hlen
    have hne : whereIdx (fun t => decide (t > pf + delF)) freq ≠ [] :=
      whereIdx_ne_nil _ _ hx (by simpa using hgt)
    have hr : ∃ r, rightIdx? freq pf delF = some r ∧ r < freq.length := by
      unfold rightIdx?
      cases hh : (whereIdx (fun t => decide (t > pf + delF)) freq).head? with
      | none => exact absurd (List.head?_eq_none_iff.mp hh) hne
      | some r =>
        exact ⟨r, rfl, whereIdx_mem_lt _ _ (List.mem_of_mem_head? hh)⟩
    obtain ⟨r, hr, hrlt⟩ := hr
    have hfne : freq ≠ [] := List.ne_nil_of_mem hin
    have hleft : leftIdx freq pf delF < freq.length := leftIdx_lt freq pf delF hfne
    have hrr : ∃ c, resp.get? r = some c := by
      rw [List.get?_eq_get (by omega)]
      exact ⟨_, rfl⟩
    have hrl : ∃ c, resp.get? (leftIdx freq pf delF) = some c := by
      rw [List.get?_eq_get (by omega)]
      exact ⟨_, rfl⟩
    obtain ⟨cr, hcr⟩ := hrr
    obtain ⟨cl, hcl⟩ := hrl
    unfold etaFit
    rw [hm, hr]
    simp only [hcr, hcl]
    exact ⟨_, rfl⟩

theorem foldl_pick_mem (xs : List ℚ) :
    ∀ x, xs.foldl (fun a b => if b < a then b else a) x ∈ x :: xs := by
  induction xs with
  | nil => intro x; exact List.mem_singleton.mpr rfl
  | cons y ys ih =>
    intro x
    rw [List.foldl_cons]
    have h := ih (if y < x then y else x)
    rcases List.mem_cons.mp h with heq | hmem
    · rw [heq]
      by_cases hc : y < x
      · rw [if_pos hc]
        exact List.mem_cons_of_mem x (List.mem_cons_self y ys)
      · rw [if_neg hc]
        exact List.mem_cons_self x (y :: ys)
    · exact List.mem_cons_of_mem x (List.mem_cons_of_mem y hmem)

theorem minQ?_mem {l : List ℚ} {m : ℚ} (h : minQ? l = some m) : m ∈ l := by
  cases l with
  | nil => simp [minQ?] at h
  | cons x xs =>
    unfold minQ? at h
    have hm := Option.some.inj h
    rw [← hm]
    exact foldl_pick_mem xs x

theorem rollingMedian_length (l : List ℚ) (w : ℕ) :
    (rollingMedian l w).length = l.length := by
  unfold rollingMedian
  rw [List.length_map, List.length_range]

theorem blockMinIdx_ok_lt {amp : List ℚ} {s e idx : ℕ}
    (h : blockMinIdx amp s e = .ok idx) : idx < e := by
  unfold blockMinIdx at h
  cases hmin : minQ? (pySlice amp s e) with
  | none => rw [hmin] at h; exact absurd h (by simp)
  | some m =>
    rw [hmin] at h
    have hidx := Except.ok.inj h
    have hmem : m ∈ pySlice amp s e := minQ?_mem hmin
    have hfind : (pySlice amp s e).findIdx (fun x => x == m) <
        (pySlice amp s e).length :=
      List.findIdx_lt_length_of_exists ⟨m, hmem, by simp⟩
    have hlen : (pySlice amp s e).length ≤ e - s := by
      unfold pySlice
      rw [List.length_take]
      omega
    have hne : pySlice amp s e ≠ [] := List.ne_nil_of_mem hmem
    have hpos : 0 < (pySlice amp s e).length := List.length_pos.mpr hne
    omega

theorem mapGetE_ok {α : Type} (l : List α) :
    ∀ idxs : List ℕ, (∀ i ∈ idxs, i < l.length) →
      ∃ xs, mapGetE l idxs = .ok xs := by
  intro idxs
  induction idxs with
  | nil => intro _; exact ⟨[], rfl⟩
  | cons i is ih =>
    intro h
    obtain ⟨xs, hxs⟩ := ih (fun j hj => h j (List.mem_cons_of_mem i hj))
    have hi : i < l.length := h i (List.mem_cons_self i is)
    obtain ⟨x, hx⟩ : ∃ x, l.get? i = some x := by
      rw [List.get?_eq_get hi]
      exact ⟨_, rfl⟩
    refine ⟨x :: xs, ?_⟩
    unfold mapGetE
    rw [hx, hxs]

theorem blockMinIdx_error {amp : List ℚ} {s e : ℕ} {err : PyErr}
    (h : blockMinIdx amp s e = .error err) : err = .valueErr := by
  unfold blockMinIdx at h
  cases hmin : minQ? (pySlice amp s e) with
  | none =>
    rw [hmin] at h
    exact (Except.error.inj h).symm
  | some m =>
    rw [hmin] at h
    exact absurd h (by simp)

theorem findPeakStep_spec (freq amp : List ℚ) (med : List (Option ℚ))
    (fmin fmax acut : ℚ) (hamp : amp.length = freq.length)
    (hmed : med.length = freq.length)
    (acc : List ℕ) (p : ℕ × ℕ) (hp1 : p.1 < freq.length) (hp2 : p.2 < freq.length)
    (hacc : ∀ i ∈ acc, i + 1 < freq.length) :
    (∀ e, findPeakStep freq amp med fmin fmax acut acc p = .error e →
      e = .valueErr) ∧
    (∀ res, findPeakStep freq amp med fmin fmax acut acc p = .ok res →
      ∀ i ∈ res, i + 1 < freq.length) := by
  obtain ⟨fs, hfs⟩ : ∃ x, freq.get? p.1 = some x := by
    rw [List.get?_eq_get hp1]; exact ⟨_, rfl⟩
  obtain ⟨fe, hfe⟩ : ∃ x, freq.get? p.2 = some x := by
    rw [List.get?_eq_get hp2]; exact ⟨_, rfl⟩
  unfold findPeakStep
  rw [hfs, hfe]
  simp only []
  by_cases hcond : fs > fmin ∧ fe < fmax
  · rw [if_pos hcond]
    cases hbm : blockMinIdx amp p.1 p.2 with
    | error e =>
      refine ⟨?_, ?_⟩
      · intro e' he'
        have := Except.error.inj he'
        rw [← this]
        exact blockMinIdx_error hbm
      · intro res hres
        exact absurd hres (by simp)
    | ok idx =>
      have hidx : idx + 1 < freq.length := by
        have := blockMinIdx_ok_lt hbm
        omega
      obtain ⟨mopt, hmopt⟩ : ∃ x, med.get? idx = some x := by
        rw [List.get?_eq_get (by omega)]; exact ⟨_, rfl⟩
      obtain ⟨a, ha⟩ : ∃ x, amp.get? idx = some x := by
        rw [List.get?_eq_get (by omega)]; exact ⟨_, rfl⟩
      refine ⟨?_, ?_⟩
      · intro e' he'
        unfold acceptPeak at he'
        simp only [hmopt, ha] at he'
        exact absurd he' (by simp)
      · intro res hres
        unfold acceptPeak at hres
        simp only [hmopt, ha] at hres
        have hres' := Except.ok.inj hres
        rw [← hres']
        intro i hi
        split at hi
        · rcases List.mem_append.mp hi with hiacc | hisingle
          · exact hacc i hiacc
          · rw [List.mem_singleton.mp hisingle]
            exact hidx
        · exact hacc i hi
  · rw [if_neg hcond]
    refine ⟨?_, ?_⟩
    · intro e he
      exact absurd he (by simp)
    · intro res hres
      have := Except.ok.inj hres
      rw [← this]
      exact hacc

theorem foldStep_peaks_spec (freq amp : List ℚ) (med : List (Option ℚ))
    (fmin fmax acut : ℚ) (hamp : amp.length = freq.length)
    (hmed : med.length = freq.length) :
    ∀ (pairs : List (ℕ × ℕ)) (acc : List ℕ),
      (∀ p ∈ pairs, p.1 < freq.length ∧ p.2 < freq.length) →
      (∀ i ∈ acc, i + 1 < freq.length) →
      (∀ e, foldStep (findPeakStep freq amp med fmin fmax acut) pairs acc =
        .error e → e = .valueErr) ∧
      (∀ res, foldStep (findPeakStep freq amp med fmin fmax acut) pairs acc =
        .ok res → ∀ i ∈ res, i + 1 < freq.length) := by
  intro pairs
  induction pairs with
  | nil =>
    intro acc _ hacc
    refine ⟨?_, ?_⟩
    · intro e he
      exact absurd he (by simp [foldStep])
    · intro res hres
      unfold foldStep at hres
      have := Except.ok.inj hres
      rw [← this]
      exact hacc
  | cons p ps ih =>
    intro acc hpairs hacc
    have hp := hpairs p (List.mem_cons_self p ps)
    have hstep := findPeakStep_spec freq amp med fmin fmax acut hamp hmed acc p
      hp.1 hp.2 hacc
    unfold foldStep
    cases hg : findPeakStep freq amp med fmin fmax acut acc p with
    | error e =>
      refine ⟨?_, ?_⟩
      · intro e' he'
        have := Except.error.inj he'
        rw [← this]
        exact hstep.1 e hg
      · intro res hres
        exact absurd hres (by simp)
    | ok acc' =>
      exact ih acc' (fun q hq => hpairs q (List.mem_cons_of_mem p hq))
        (hstep.2 acc' hg)

/-- C7: for all inputs with parallel `freq`/`resp` arrays, `find_peak`
never fails with an out-of-range read (its only possible failure is the
ValueError `np.min` raises on an empty slice), and every peak index it
returns lies in `[0, len(freq) - 1)`. -/
theorem C7_peak_bounds (freq amp : List ℚ) (gradLocRaw : List Bool)
    (fmin fmax acut : ℚ) (hamp : amp.length = freq.length)
    (hgrad : gradLocRaw.length = freq.length - 1) :
    (∀ e, findPeak freq amp gradLocRaw fmin fmax acut = .error e →
      e = .valueErr) ∧
    (∀ pk pf, findPeak freq amp gradLocRaw fmin fmax acut = .ok (pk, pf) →
      ∀ i ∈ pk, i + 1 < freq.length) := by
  by_cases hfreq : freq = []
  · subst hfreq
    have hg : gradLocRaw = [] := List.eq_nil_of_length_eq_zero (by simpa using hgrad)
    have ha : amp = [] := List.eq_nil_of_length_eq_zero (by simpa using hamp)
    subst hg
    subst ha
    refine ⟨?_, ?_⟩
    · intro e he
      rw [show findPeak [] [] [] fmin fmax acut = .ok ([], []) from rfl] at he
      exact absurd he (by simp)
    · intro pk pf h
      rw [show findPeak [] [] [] fmin fmax acut = .ok ([], []) from rfl] at h
      have := Except.ok.inj h
      have hpk : pk = [] := (Prod.mk.injEq _ _ _ _ ▸ this).1.symm
      rw [hpk]
      intro i hi
      exact absurd hi (List.not_mem_nil i)
  · have hn : 1 ≤ freq.length := by
      have := List.length_pos.mpr hfreq
      omega
    have hflaglen : (gradLocRaw ++ [false]).length = freq.length := by
      rw [List.length_append, hgrad]
      simp
      omega
    have hflagne : gradLocRaw ++ [false] ≠ [] := by simp
    obtain ⟨padded, hpad, hplen, _⟩ := padFlags_covers _ hflagne 20 20 10
    have hpaddedne : padded ≠ [] := by
      have : 0 < padded.length := by
        rw [hplen, hflaglen]
        omega
      exact List.length_pos.mp this
    obtain ⟨S, E, hblocks, hSE, hbounds⟩ := findFlagBlocks_spec padded hpaddedne none none
    have hred : findPeak freq amp gradLocRaw fmin fmax acut =
        (match foldStep (findPeakStep freq amp (rollingMedian amp 500) fmin fmax acut)
            (S.zip E) [] with
        | .error e => .error e
        | .ok peaks =>
          match mapGetE freq peaks with
          | .error e => .error e
          | .ok pfreqs => .ok (peaks, pfreqs)) := by
      unfold findPeak
      simp only [hpad, hblocks]
    have hpairs : ∀ p ∈ S.zip E, p.1 < freq.length ∧ p.2 < freq.length := by
      intro p hp
      rcases List.mem_iff_getElem.mp hp with ⟨k, hk, hkeq⟩
      have hkS : k < S.length := by
        rw [List.length_zip] at hk
        omega
      have hkE : k < E.length := by
        rw [List.length_zip] at hk
        omega
      have hkval : (S.zip E)[k] = (S.getD k 0, E.getD k 0) := by
        rw [List.getElem_zip, List.getD_eq_getElem _ _ hkS, List.getD_eq_getElem _ _ hkE]
      rw [hkval] at hkeq
      have hb := hbounds k hkS
      rw [hplen, hflaglen] at hb
      rw [← hkeq]
      constructor
      · omega
      · omega
    have hmedlen : (rollingMedian amp 500).length = freq.length := by
      rw [rollingMedian_length, hamp]
    have hfold := foldStep_peaks_spec freq amp (rollingMedian amp 500) fmin fmax acut
      hamp hmedlen (S.zip E) [] hpairs (by intro i hi; exact absurd hi (List.not_mem_nil i))
    cases hf : foldStep (findPeakStep freq amp (rollingMedian amp 500) fmin fmax acut)
        (S.zip E) [] with
    | error e =>
      rw [hred, hf]
      refine ⟨?_, ?_⟩
      · intro e' he'
        have := Except.error.inj he'
        rw [← this]
        exact hfold.1 e hf
      · intro pk pf h
        exact absurd h (by simp)
    | ok peaks =>
      have hpk := hfold.2 peaks hf
      obtain ⟨pfreqs, hmap⟩ := mapGetE_ok freq peaks (by
        intro i hi
        have := hpk i hi
        omega)
      rw [hred, hf]
      simp only [hmap]
      refine ⟨?_, ?_⟩
      · intro e he
        exact absurd he (by simp)
      · intro pk' pf' h
        have := Except.ok.inj h
        have hpk' : peaks = pk' := (Prod.mk.injEq _ _ _ _ ▸ this).1
        rw [← hpk']
        exact hpk

theorem phCorrect_eq_zero {dd : ℚ} (h : |dd| < 1) : phCorrect dd = 0 := by
  unfold phCorrect
  rw [if_pos h]

theorem unwrapAux_eq_self (rest : List ℚ) :
    ∀ prev, (∀ i, i + 1 < (prev :: rest).length →
        |(prev :: rest).getD (i+1) 0 - (prev :: rest).getD i 0| < 1) →
      unwrapAux prev 0 rest = rest := by
  induction rest with
  | nil => intro prev _; rfl
  | cons y ys ih =>
    intro prev h
    have h0 : |y - prev| < 1 := by
      have := h 0 (by simp)
      simpa using this
    unfold unwrapAux
    rw [phCorrect_eq_zero h0]
    rw [show (0:ℚ) + 0 = 0 by norm_num]
    rw [show y + 0 = y by norm_num]
    congr 1
    exact ih y (fun i hi => h (i+1) (by simpa using hi))

theorem unwrapPi_eq_self {l : List ℚ} (h : smallDiffs l) : unwrapPi l = l := by
  cases l with
  | nil => rfl
  | cons x xs =>
    show x :: unwrapAux x 0 xs = x :: xs
    congr 1
    exact unwrapAux_eq_self xs x h

theorem zipWith_mergeAssign_fst (rs : List (ℕ × Resonance)) :
    ∀ (ts : List (ℕ × ℤ × ℚ)),
      (rs.zipWith (fun r t => (r.1, mergeAssign r.2 t)) ts).map Prod.fst =
        (rs.map Prod.fst).take ts.length := by
  induction rs with
  | nil => intro ts; simp
  | cons r rs ih =>
    intro ts
    cases ts with
    | nil => simp
    | cons t ts => simp [ih ts]

theorem enum_mk_fst (l : List (ℚ × EtaOut)) :
    ((l.enum.map (fun q => (q.1, mkResonance q.2.1 q.2.2))).map Prod.fst) =
      List.range l.length := by
  rw [List.map_map]
  rw [show (Prod.fst ∘ fun q : ℕ × (ℚ × EtaOut) => (q.1, mkResonance q.2.1 q.2.2)) =
    Prod.fst from rfl]
  rw [List.enum_map_fst]

/-- C8: `tune_band` on pre-supplied arrays is a pure function of its
inputs — two runs with different timestamps but identical data and
collaborator tables return identical results — and any returned mapping
has the dense keys `0..k-1` in detection order, freshly rebuilt per run. -/
theorem C8_tune_band_deterministic (t1 t2 : String) (freq : List ℚ)
    (resp : List Cq) (wangle amp : List ℚ) (gradLocRaw : List Bool)
    (fmin fmax acut : ℚ) (centers : List ℚ) (chansOf : ℕ → List ℤ) :
    tuneBand t1 freq resp wangle amp gradLocRaw fmin fmax acut centers chansOf =
      tuneBand t2 freq resp wangle amp gradLocRaw fmin fmax acut centers chansOf ∧
    (∀ m, tuneBand t1 freq resp wangle amp gradLocRaw fmin fmax acut centers
        chansOf = .ok m → m.map Prod.fst = List.range m.length) := by
  refine ⟨rfl, ?_⟩
  intro m hm
  unfold tuneBand at hm
  cases hfp : findPeak freq amp gradLocRaw fmin fmax acut with
  | error e =>
    rw [hfp] at hm
    exact absurd hm (by simp)
  | ok pr =>
    obtain ⟨pidx, peaks⟩ := pr
    rw [hfp] at hm
    cases he : mapExcept (fun p => etaFit freq resp wangle p 200000 (24/5)) peaks with
    | error e =>
      simp only [he] at hm
      exact absurd hm (by simp)
    | ok etas =>
      simp only [he] at hm
      cases hac : assignChannels (((peaks.zip etas).enum.map
          (fun q => (q.1, mkResonance q.2.1 q.2.2))).map
            (fun r => r.2.freq * (1/1000000))) centers chansOf 4 with
      | error e =>
        simp only [hac] at hm
        exact absurd hm (by simp)
      | ok tripl =>
        obtain ⟨subbands, channels, offsets⟩ := tripl
        simp only [hac] at hm
        have hm' := Except.ok.inj hm
        rw [← hm']
        rw [zipWith_mergeAssign_fst, enum_mk_fst]
        rw [List.take_range]
        have hlen : (((peaks.zip etas).enum.map
            (fun q => (q.1, mkResonance q.2.1 q.2.2))).zipWith
              (fun r t => (r.1, mergeAssign r.2 t))
              (subbands.zip (channels.zip offsets))).length =
            min ((peaks.zip etas).length) ((subbands.zip (channels.zip offsets)).length) := by
          rw [List.length_zipWith, List.length_map, List.enum_length]
        rw [hlen, Nat.min_comm]

/-- C1: `assign_channels` cannot assign any channel: for a one-candidate
input that passes the scale guard, the loop's first iteration already
raises TypeError at `len(list(concat_mask)[0])` (line 622), because the
indexed element is an integer — the claimed first-come truncation never
executes. -/
theorem C1_assign_channels_type_error :
    assignChannels [11/10] [1, 2] (fun _ => [0, 1, 2, 3]) 4 = .error .typeErr := by
  norm_num [assignChannels, mapExcept, getClosestSubband, getE, checkFreqScale,
    argminIdx, minQ?, whereIdx, uniqueSorted, foldStep, assignChannelsStep,
    pyLenOfInt, insertNat, abs_of_nonneg, Bool.cond_eq_ite, beq_iff_eq,
    List.dedup, List.pwFilter, List.filter]

/-- C2 (counterexample): with centers `[1, 1e6]` and `f = 1e6` the nearest
center is `1e6`, so `|f| / |nearest| = 1` does not exceed 1e3, yet the
call raises the scale ValueError — the code checks `centers[0]`, not the
nearest center. -/
theorem C2_scale_counterexample :
    getClosestSubband 1000000 [1, 1000000] = .error .valueErr ∧
    specNearestCenter 1000000 [1, 1000000] = some 1000000 ∧
    ¬(|(1000000 : ℚ)| / |(1000000 : ℚ)| > 1000) := by
  refine ⟨?_, ?_, ?_⟩
  · norm_num [getClosestSubband, getE, checkFreqScale, abs_of_nonneg]
  · norm_num [specNearestCenter, argminIdx, minQ?, whereIdx, abs_of_nonneg,
      abs_of_nonpos, Bool.cond_eq_ite, beq_iff_eq, List.findIdx, List.findIdx.go]
  · norm_num [abs_of_nonneg]

/-- C2 (amended): `get_closest_subband` raises the explicit scale
ValueError iff `|f / centers[0]|` exceeds 1e3 — the guard compares against
the first table entry, not the nearest center; below the threshold it
returns the index of the nearest center by absolute difference. -/
theorem C2_scale_guard (f c0 : ℚ) (cs : List ℚ) (h0 : c0 ≠ 0) :
    (|f / c0| > 1000 → getClosestSubband f (c0 :: cs) = .error .valueErr) ∧
    (¬(|f / c0| > 1000) → getClosestSubband f (c0 :: cs) =
      .ok (argminIdx ((c0 :: cs).map (fun x => |x - f|)))) := by
  have hget : getE (c0 :: cs) 0 = .ok c0 := rfl
  constructor
  · intro h
    unfold getClosestSubband checkFreqScale
    rw [hget]
    simp only [if_neg h0, if_pos h]
  · intro h
    unfold getClosestSubband checkFreqScale
    rw [hget]
    simp only [if_neg h0, if_neg h]

theorem C2_scale_guard_witness :
    getClosestSubband 1000000 [1] = .error .valueErr :=
  (C2_scale_guard 1000000 1 [] (by norm_num)).1 (by
    rw [abs_of_nonneg (by norm_num : (0:ℚ) ≤ 1000000 / 1)]
    norm_num)

/-- C3 (counterexample): on `freq = [0,1,2,3]` and wrapped angles
`[-0.9π, 0, 0.9π, 0]`, `np.unwrap(angle - line)` re-wraps the steep
line-subtracted signal (adding 2π at the last entry), so the code's
flattened phase differs from `unwrap(angle) - line` as the claim states
it. -/
theorem C3_flattened_counterexample :
    flattenedPhase [0, 1, 2, 3] [-9/10, 0, 9/10, 0] ≠
      specFlattenedPhase [0, 1, 2, 3] [-9/10, 0, 9/10, 0] := by
  norm_num [flattenedPhase, specFlattenedPhase, unwrapPi, unwrapAux, phCorrect,
    fmod2, polyfit1, lineVals, sumQ, abs_of_nonneg, abs_of_nonpos]

/-- C3 (amended): the flattened phase is `unwrap(angle(resp) - line)`
(the line, fitted to `unwrap(angle(resp))` over the whole array, is
subtracted from the wrapped angle before unwrapping); it agrees with the
claimed `unwrap(angle(resp)) - line` whenever the successive differences
of both the wrapped angle and the line-subtracted signal stay below π. -/
theorem C3_flattened_phase (freq wangle : List ℚ)
    (h1 : smallDiffs wangle)
    (h2 : smallDiffs (wangle.zipWith (· - ·)
      (lineVals (polyfit1 freq (unwrapPi wangle)) freq))) :
    flattenedPhase freq wangle =
      wangle.zipWith (· - ·) (lineVals (polyfit1 freq (unwrapPi wangle)) freq) ∧
    flattenedPhase freq wangle = specFlattenedPhase freq wangle := by
  have hw : unwrapPi wangle = wangle := unwrapPi_eq_self h1
  constructor
  · unfold flattenedPhase
    exact unwrapPi_eq_self h2
  · unfold flattenedPhase specFlattenedPhase
    rw [unwrapPi_eq_self h2, hw]

theorem C3_flattened_phase_witness :
    flattenedPhase [0, 1] [0, 1/2] = specFlattenedPhase [0, 1] [0, 1/2] :=
  (C3_flattened_phase [0, 1] [0, 1/2]
    (by
      intro i hi
      have hi0 : i = 0 := by simp at hi; omega
      subst hi0
      norm_num [List.getD, abs_of_nonneg])
    (by
      intro i hi
      have hl : ([0, 1/2] : List ℚ).zipWith (· - ·)
          (lineVals (polyfit1 [0, 1] (unwrapPi [0, 1/2])) [0, 1]) = [0, 0] := by
        norm_num [lineVals, polyfit1, unwrapPi, unwrapAux, phCorrect, fmod2, sumQ]
      rw [hl] at hi ⊢
      have hi0 : i = 0 := by simp at hi; omega
      subst hi0
      norm_num [List.getD, abs_of_nonneg])).2

/-- C4: at `amp = [5,4,3]` and flag block `(s,e) = (0,2)`, the slice
`amp[s:e]` of `find_peak` excludes the inclusive block end documented by
`find_flag_blocks`: the code selects index 1 even though the amplitude at
index 2 is strictly smaller — not the minimum over the whole block. -/
theorem C4_block_min_code_eval :
    blockMinIdx [5, 4, 3] 0 2 = .ok 1 ∧
    specBlockMinIdx [5, 4, 3] 0 2 = some 2 ∧
    ([5, 4, 3] : List ℚ).getD 2 0 < ([5, 4, 3] : List ℚ).getD 1 0 := by
  refine ⟨?_, ?_, ?_⟩
  · norm_num [blockMinIdx, pySlice, minQ?, List.findIdx, List.findIdx.go,
      Bool.cond_eq_ite, beq_iff_eq]
  · norm_num [specBlockMinIdx, pySlice, minQ?, List.findIdx, List.findIdx.go,
      Bool.cond_eq_ite, beq_iff_eq]
  · norm_num [List.getD]

/-- C5 (counterexample): two runs 9 apart with pads 3/3 and `min_gap = 5`:
the code measures the gap before expansion (9, no merge), while the
claimed procedure measures it after expansion (2 < 5, merge) — the
outputs differ. -/
theorem C5_pad_flags_counterexample :
    padFlags [true, false, false, false, false, false, false, false, false,
        true, false, false] 3 3 5 0 ≠
      specPadFlagsC5 [true, false, false, false, false, false, false, false,
        false, true, false, false] 3 3 5 := by
  decide

/-- C5 (amended): `pad_flags` (with `min_length = 0`) first merges a run
into the next one when their gap before any expansion is strictly less
than `min_gap` (extending the run's exclusive end to the next run's
start), and only then widens each merged interval by `before_pad` left and
`after_pad` right, clipped to the array bounds: an output position is True
iff it lies in such a widened merged interval. -/
theorem C5_pad_flags (f : List Bool) (hne : f ≠ []) (bp ap : ℕ) (mg : ℤ) :
    ∃ out, padFlags f bp ap mg 0 = some out ∧ out.length = f.length ∧
      ∀ i, i < f.length →
        (out.getD i false = true ↔
          ∃ j, j < (startsOf f).length ∧ j < (endsOf f).length ∧
            Int.ofNat ((startsOf f).getD j 0) - bp ≤ (i : ℤ) ∧
            (i : ℤ) < (mergedAfters f mg).getD j 0 + ap) := by
  obtain ⟨out, hout, hlen, _⟩ := padFlags_covers f hne bp ap mg
  refine ⟨out, hout, hlen, ?_⟩
  intro i hi
  rw [padFlags_getD_iff f hne bp ap mg out hout i]
  constructor
  · rintro ⟨j, hj1, hj2, hj3, hj4, _⟩
    exact ⟨j, hj1, hj2, hj3, hj4⟩
  · rintro ⟨j, hj1, hj2, hj3, hj4⟩
    exact ⟨j, hj1, hj2, hj3, hj4, hi⟩

theorem C5_pad_flags_witness :
    ([true, false] : List Bool) ≠ [] ∧
    (∃ out, padFlags [true, false] 1 1 0 0 = some out ∧
      out.length = ([true, false] : List Bool).length ∧
      ∀ i, i < ([true, false] : List Bool).length →
        (out.getD i false = true ↔
          ∃ j, j < (startsOf [true, false]).length ∧
            j < (endsOf [true, false]).length ∧
            Int.ofNat ((startsOf [true, false]).getD j 0) - 1 ≤ (i : ℤ) ∧
            (i : ℤ) < (mergedAfters [true, false] 0).getD j 0 + 1)) :=
  ⟨by decide, C5_pad_flags [true, false] (by decide) 1 1 0⟩

theorem C6_eta_window_witness :
    etaFit [5, 6] [(1, 0), (2, 0)] [0, 0] 5 10 (24/5) = .error .indexOOB ∧
    leftIdx [5, 6] 5 0 = 0 ∧
    (∃ out, etaFit [5, 6] [(1, 0), (2, 0)] [0, 0] 5 0 (24/5) = .ok out) := by
  refine ⟨?_, ?_, ?_⟩
  · exact (C6_eta_window [5, 6] [(1, 0), (2, 0)] [0, 0] 5 10 (24/5)
      (by simp)).1 (by
        intro x hx
        simp at hx
        rcases hx with rfl | rfl <;> norm_num)
  · exact (C6_eta_window [5, 6] [(1, 0), (2, 0)] [0, 0] 5 0 (24/5)
      (by simp)).2.1 (by
        intro x hx
        simp at hx
        rcases hx with rfl | rfl <;> norm_num)
  · exact (C6_eta_window [5, 6] [(1, 0), (2, 0)] [0, 0] 5 0 (24/5)
      (by simp)).2.2 ⟨6, by simp, by norm_num⟩ rfl

theorem C7_peak_bounds_witness :
    ([1, 1] : List ℚ).length = ([0, 1] : List ℚ).length ∧
    ([true] : List Bool).length = ([0, 1] : List ℚ).length - 1 ∧
    ((∀ e, findPeak [0, 1] [1, 1] [true] (-1) 2 (1/4) = .error e →
        e = .valueErr) ∧
      (∀ pk pf, findPeak [0, 1] [1, 1] [true] (-1) 2 (1/4) = .ok (pk, pf) →
        ∀ i ∈ pk, i + 1 < ([0, 1] : List ℚ).length)) :=
  ⟨rfl, rfl, C7_peak_bounds [0, 1] [1, 1] [true] (-1) 2 (1/4) rfl rfl⟩

theorem C8_tune_band_witness :
    tuneBand "t1" [] [] [] [] [] (-1) 1 (1/4) [1] (fun _ => []) =
      tuneBand "t2" [] [] [] [] [] (-1) 1 (1/4) [1] (fun _ => []) ∧
    ([] : List (ℕ × Resonance)).map Prod.fst =
      List.range ([] : List (ℕ × Resonance)).length :=
  ⟨(C8_tune_band_deterministic "t1" "t2" [] [] [] [] [] (-1) 1 (1/4) [1]
      (fun _ => [])).1,
    (C8_tune_band_deterministic "t1" "t2" [] [] [] [] [] (-1) 1 (1/4) [1]
      (fun _ => [])).2 [] rfl⟩

/-- C9: `pad_flags` with `min_length = 0` returns an array of the input's
length in which every originally-True position is still True — padding and
merging only ever add flags. -/
theorem C9_pad_flags_monotone (f : List Bool) (hne : f ≠ []) (bp ap : ℕ)
    (mg : ℤ) :
    ∃ out, padFlags f bp ap mg 0 = some out ∧ out.length = f.length ∧
      ∀ i, f.getD i false = true → out.getD i false = true :=
  padFlags_covers f hne bp ap mg

theorem C9_pad_flags_monotone_witness :
    ([true, false] : List Bool) ≠ [] ∧
    (∃ out, padFlags [true, false] 2 2 1 0 = some out ∧
      out.length = ([true, false] : List Bool).length ∧
      ∀ i, ([true, false] : List Bool).getD i false = true →
        out.getD i false = true) :=
  ⟨by decide, C9_pad_flags_monotone [true, false] (by decide) 2 2 1⟩

/-- C10: `find_flag_blocks` fails (IndexError at `_flag[0]`) on an empty
flag array, for any optional arguments; on a non-empty array it returns
equally long start/end index arrays with `start_j ≤ end_j ≤ len(flag)-1`
for every block. -/
theorem C10_find_flag_blocks :
    (∀ minimum min_gap, findFlagBlocks [] minimum min_gap = none) ∧
    (∀ (flag : List Bool), flag ≠ [] → ∀ minimum min_gap,
      ∃ S E, findFlagBlocks flag minimum min_gap = some (S, E) ∧
        S.length = E.length ∧
        ∀ j, j < S.length →
          S.getD j 0 ≤ E.getD j 0 ∧ E.getD j 0 + 1 ≤ flag.length) :=
  ⟨findFlagBlocks_nil,
    fun flag hne minimum min_gap => findFlagBlocks_spec flag hne minimum min_gap⟩

theorem C10_find_flag_blocks_witness :
    ([true] : List Bool) ≠ [] ∧
    (∃ S E, findFlagBlocks [true] none none = some (S, E) ∧
      S.length = E.length ∧
      ∀ j, j < S.length →
        S.getD j 0 ≤ E.getD j 0 ∧ E.getD j 0 + 1 ≤ ([true] : List Bool).length) :=
  ⟨by decide, C10_find_flag_blocks.2 [true] (by decide) none none⟩

end PySmurf
